import Mathlib

/-!
# Verification of the Comparative queueing simulation

Shallow embedding of the repository's two source files:

* `src/3d.py` — `run_des` (simpy-based discrete-event simulation of a
  FIFO multi-server queue), `run_cs` (analytic M/M/c / Erlang-C model),
  and the statistics block of the Streamlit app
  (`wait_times`, `avg_wait`, `max_wait`, `sim_end`, `total_service`,
  `des_utilization`, `throughput`, lines 121–128).
* `src/app.py` — `run_discrete` (a variant of the same DES returning only
  wait times) and the numpy statistics over its output.

## Modelling decisions

Python floats are embedded as `ℚ` (exact arithmetic over the reals the
floats approximate).

**Random source.**  Both simulations draw from the global `random` module,
seeded externally.  Each call `random.expovariate(1.0 / mean)` returns
`mean * E` where `E ≥ 0` is the next unit-exponential variate produced by
the seeded Mersenne–Twister stream.  We model the seeded stream as a
function `stream : ℕ → ℚ` giving the successive unit-exponential values;
a seed determines the stream, so "same seed" is modelled as "same stream".
Non-negativity of the draws (`-log(1-u) ≥ 0` for `u ∈ [0,1)`) is taken as
a hypothesis `∀ k, 0 ≤ stream k` where a proof needs it.

**Order of draws in `run_des` (src/3d.py).**  simpy processes events in
`(time, priority, insertion-id)` order; process-initialisation events are
URGENT (priority 0), timeouts NORMAL (priority 1).  Tracing `run_des`:
the arrival generator draws the interarrival gap `d 0` at time 0; at every
arrival instant of student `i` it first spawns student `i`, then (if one
remains) draws the next gap `d (i+1)` and suspends; the freshly spawned
student `i` then runs (URGENT beats the generator's later timeout) and
draws its service duration `s i`.  Hence the stream is consumed in the
order `d 0, d 1, s 0, d 2, s 1, …, d (n-1), s (n-2), s (n-1)`, which gives
the index maps in `drawD` / `drawS` below.  No other event consumes
randomness.

**Server pool.**  `simpy.Resource(env, capacity=servers)` grants requests
in strict FIFO order of request; students request at their arrival
instants, which occur in id order, so grants occur in id order.  Because
the servers are interchangeable (the resource only counts users), the
service-start times obey the classical free-server recursion: keep the
multiset of the `servers` times at which a slot next becomes free
(initially all 0); student `i` starts at `max (arrival i) (min of the
multiset)` and the minimal element is replaced by the student's departure
time.  Simultaneous events (a departure and an arrival at the same
instant) are tie-robust: whichever order simpy processes them in, the
recorded timestamps are the ones given by this recursion, because a grant
always goes to the queue head and a same-instant grant yields the same
`start`.  `freeList`, `startAt`, `endAt` below implement exactly this.

`run_des` finally returns `sorted(students, key=lambda x: x["id"])`; the
ids are exactly `0 … n-1`, so the returned list is the per-id record list
in id order, which is how `runDES` builds it directly.

**Python failures.**  `max` / `np.max` on an empty sequence raise
`ValueError`; this is modelled by `maxQ : List ℚ → Option ℚ` returning
`none`.  `np.mean` on an empty list returns the IEEE float `NaN` (with a
warning, no exception); this is modelled by `NpFloat.nan`.  The entry
points themselves contain no parameter validation of their own; for the
parameter ranges the claims quantify over (positive means, `servers ≥ 1`)
no library call fails and the run is total, which is the domain on which
the embedding below is stated.
-/

/-- Parameters of `run_des(num_students, arrival_rate, service_time, servers)`
(src/3d.py line 14).  In the source, `arrival_rate` is the *mean
interarrival gap* in minutes and `service_time` the *mean service
duration*; both are fed to `random.expovariate(1.0 / mean)`. -/
structure DESParams where
  num_students : ℕ
  arrival_rate : ℚ
  service_time : ℚ
  servers : ℕ
deriving DecidableEq

/-- The dict appended in `student` (src/3d.py lines 27–35).  `endT` embeds
the key `"end"` (a Lean keyword). -/
structure EntityRecord where
  id : ℕ
  arrival : ℚ
  start : ℚ
  endT : ℚ
  wait : ℚ
  service : ℚ
  system : ℚ
deriving DecidableEq

/-- Minimum of a list of rationals (0 for the empty list; every use below
is on a list of length `servers`). -/
def listMin : List ℚ → ℚ
  | [] => 0
  | [x] => x
  | x :: y :: t => min x (listMin (y :: t))

/-- Replace the first occurrence of `a` in a list by `v`. -/
def replaceAt (a v : ℚ) : List ℚ → List ℚ
  | [] => []
  | x :: xs => if x = a then v :: xs else x :: replaceAt a v xs

/-- The value of the `k`-th call `random.expovariate(1.0 / arrival_rate)`
made by `arrival_process` (src/3d.py line 39): the gap before arrival `i`.
Stream index per the draw-order analysis in the header: gap 0 is the very
first draw; gap `i ≥ 1` is drawn at the previous arrival instant, at
overall position `2*i - 1`. -/
def drawD (p : DESParams) (stream : ℕ → ℚ) (i : ℕ) : ℚ :=
  p.arrival_rate * stream (if i = 0 then 0 else 2 * i - 1)

/-- The value of `random.expovariate(1.0 / service_time)` drawn by
`student` number `i` (src/3d.py line 21), at overall stream position
`2*i + 2` — except the last student, spawned after the arrival loop has
exhausted `range(num_students)`, whose draw is the final one, at
position `2*num_students - 1`. -/
def drawS (p : DESParams) (stream : ℕ → ℚ) (i : ℕ) : ℚ :=
  p.service_time *
    stream (if i + 1 = p.num_students then 2 * p.num_students - 1 else 2 * i + 2)

/-- Arrival instant of student `i`: the sum of the first `i + 1`
interarrival gaps (src/3d.py lines 38–40: each student is spawned right
after its gap elapses). -/
def arrivalTime (p : DESParams) (stream : ℕ → ℚ) (i : ℕ) : ℚ :=
  Finset.sum (Finset.range (i + 1)) (fun j => drawD p stream j)

/-- State of the `simpy.Resource` pool after the first `n` students have
been enqueued: the multiset (as a list of length `servers`) of instants
at which each capacity slot next becomes free.  Initially all slots are
free at time 0; student `n` occupies the earliest-free slot from
`max (arrivalTime n) (earliest free instant)` until that plus its service
draw.  This is the exact FIFO multi-server semantics of
`counter.request()` / implicit release in src/3d.py lines 22–26 (see the
header comment). -/
def freeList (p : DESParams) (stream : ℕ → ℚ) : ℕ → List ℚ
  | 0 => List.replicate p.servers 0
  | n + 1 =>
      replaceAt (listMin (freeList p stream n))
        (max (arrivalTime p stream n) (listMin (freeList p stream n))
          + drawS p stream n)
        (freeList p stream n)

/-- `start` timestamp of student `n` (src/3d.py line 24: `env.now` right
after the request is granted). -/
def startAt (p : DESParams) (stream : ℕ → ℚ) (n : ℕ) : ℚ :=
  max (arrivalTime p stream n) (listMin (freeList p stream n))

/-- `end` timestamp of student `n` (src/3d.py line 26: `env.now` after
`yield env.timeout(service_dur)`). -/
def endAt (p : DESParams) (stream : ℕ → ℚ) (n : ℕ) : ℚ :=
  startAt p stream n + drawS p stream n

/-- The record dict appended for student `n` (src/3d.py lines 27–35). -/
def recordAt (p : DESParams) (stream : ℕ → ℚ) (n : ℕ) : EntityRecord :=
  { id := n
    arrival := arrivalTime p stream n
    start := startAt p stream n
    endT := endAt p stream n
    wait := startAt p stream n - arrivalTime p stream n
    service := drawS p stream n
    system := endAt p stream n - arrivalTime p stream n }

/-- `run_des` (src/3d.py lines 14–44): the returned list
`sorted(students, key=lambda x: x["id"])` — one record per student id, in
id order. -/
def runDES (p : DESParams) (stream : ℕ → ℚ) : List EntityRecord :=
  (List.range p.num_students).map (recordAt p stream)

/-- `wait_times = [s["wait"] for s in students]` (src/3d.py line 122). -/
def waitTimes (students : List EntityRecord) : List ℚ :=
  students.map (fun r => r.wait)

/-- Result type of numpy reductions that can produce IEEE `NaN`:
`np.mean([])` returns `nan` (no exception). -/
inductive NpFloat where
  | val : ℚ → NpFloat
  | nan : NpFloat
deriving DecidableEq

/-- `np.mean` on a list of floats: the arithmetic mean, or `NaN` when the
list is empty (src/app.py line 108 / src/3d.py line 123). -/
def npMean (l : List ℚ) : NpFloat :=
  if l.isEmpty then NpFloat.nan else NpFloat.val (l.sum / l.length)

/-- Maximum of a list; `none` models the `ValueError` that both Python's
built-in `max` and `np.max` raise on an empty sequence
(src/app.py line 109, src/3d.py lines 124–125). -/
def maxQ : List ℚ → Option ℚ
  | [] => none
  | x :: xs => some (xs.foldl max x)

/-- `avg_wait = np.mean(wait_times)` (src/3d.py line 123). -/
def avg_wait (students : List EntityRecord) : NpFloat :=
  npMean (waitTimes students)

/-- `max_wait = np.max(wait_times)` (src/3d.py line 124). -/
def max_wait (students : List EntityRecord) : Option ℚ :=
  maxQ (waitTimes students)

/-- `sim_end = max(s["end"] for s in students)` (src/3d.py line 125). -/
def sim_end (students : List EntityRecord) : Option ℚ :=
  maxQ (students.map (fun r => r.endT))

/-- `total_service = sum(s["service"] for s in students)`
(src/3d.py line 126). -/
def total_service (students : List EntityRecord) : ℚ :=
  (students.map (fun r => r.service)).sum

/-- `des_utilization = total_service / (servers * sim_end)`
(src/3d.py line 127), propagating the failure of `max` on an empty run. -/
def des_utilization (students : List EntityRecord) (servers : ℕ) : Option ℚ :=
  (sim_end students).map (fun T => total_service students / ((servers : ℚ) * T))

/-- `throughput = num_students / (sim_end + 1)` (src/3d.py line 128). -/
def throughputDES (num_students : ℕ) (students : List EntityRecord) : Option ℚ :=
  (sim_end students).map (fun T => (num_students : ℚ) / (T + 1))

/-- `inService t r` holds when the entity of record `r` occupies a server
at instant `t`: it has started service and not yet departed (service
intervals are half-open, a departure at `t` frees the slot at `t`). -/
def inService (t : ℚ) (r : EntityRecord) : Bool :=
  decide (r.start ≤ t) && decide (t < r.endT)

/-- `rho = arrival_rate / (servers * service_rate)` (src/3d.py line 50). -/
def csRho (lam mu : ℚ) (c : ℕ) : ℚ := lam / ((c : ℚ) * mu)

/-- `sum_terms` of the Erlang-C formula (src/3d.py line 55). -/
def csSumTerms (lam mu : ℚ) (c : ℕ) : ℚ :=
  Finset.sum (Finset.range c) (fun n => (lam / mu) ^ n / (Nat.factorial n : ℚ))

/-- `last_term` (src/3d.py line 56). -/
def csLastTerm (lam mu : ℚ) (c : ℕ) : ℚ :=
  ((lam / mu) ^ c / (Nat.factorial c : ℚ)) * (1 / (1 - csRho lam mu c))

/-- `p0` (src/3d.py line 57). -/
def csP0 (lam mu : ℚ) (c : ℕ) : ℚ :=
  1 / (csSumTerms lam mu c + csLastTerm lam mu c)

/-- `pw` (src/3d.py line 59). -/
def csPw (lam mu : ℚ) (c : ℕ) : ℚ := csLastTerm lam mu c * csP0 lam mu c

/-- `Lq` (src/3d.py line 60). -/
def csLq (lam mu : ℚ) (c : ℕ) : ℚ :=
  (csPw lam mu c * csRho lam mu c) / (1 - csRho lam mu c)

/-- `Wq` (src/3d.py line 61). -/
def csWq (lam mu : ℚ) (c : ℕ) : ℚ := csLq lam mu c / lam

/-- `W` (src/3d.py line 62). -/
def csW (lam mu : ℚ) (c : ℕ) : ℚ := csWq lam mu c + 1 / mu

/-- `L` (src/3d.py line 63). -/
def csL (lam mu : ℚ) (c : ℕ) : ℚ := lam * csW lam mu c

/-- The dict returned by `run_cs` in the stable case
(src/3d.py lines 65–73). -/
structure CSResult where
  rho : ℚ
  Pw : ℚ
  Wq : ℚ
  W : ℚ
  Lq : ℚ
  L : ℚ
  Throughput : ℚ
deriving DecidableEq

/-- `run_cs(arrival_rate, service_rate, servers)` (src/3d.py lines 49–73):
`None` — the "unstable" variant — when `rho >= 1`, otherwise the Erlang-C
steady-state metrics. -/
def run_cs (lam mu : ℚ) (c : ℕ) : Option CSResult :=
  if 1 ≤ csRho lam mu c then none
  else
    some
      { rho := csRho lam mu c
        Pw := csPw lam mu c
        Wq := csWq lam mu c
        W := csW lam mu c
        Lq := csLq lam mu c
        L := csL lam mu c
        Throughput := lam }

/-! ## Helper lemmas on `listMin`, `replaceAt`, `maxQ` -/

theorem listMin_mem : ∀ (l : List ℚ), l ≠ [] → listMin l ∈ l := by
  intro l
  induction l with
  | nil => intro h; exact absurd rfl h
  | cons x xs ih =>
      intro _
      cases xs with
      | nil => simp [listMin]
      | cons y t =>
          rw [listMin]
          rcases le_total x (listMin (y :: t)) with h | h
          · rw [min_eq_left h]; exact List.mem_cons_self x (y :: t)
          · rw [min_eq_right h]
            exact List.mem_cons_of_mem x (ih (by simp))

theorem listMin_le : ∀ (l : List ℚ) (x : ℚ), x ∈ l → listMin l ≤ x := by
  intro l
  induction l with
  | nil => intro x hx; exact absurd hx (List.not_mem_nil x)
  | cons a xs ih =>
      intro x hx
      cases xs with
      | nil =>
          rcases List.mem_cons.mp hx with h | h
          · simp [listMin, h]
          · exact absurd h (List.not_mem_nil x)
      | cons y t =>
          rw [listMin]
          rcases List.mem_cons.mp hx with h | h
          · rw [h]; exact min_le_left _ _
          · exact le_trans (min_le_right _ _) (ih x h)

theorem le_listMin : ∀ (l : List ℚ) (c : ℚ), l ≠ [] → (∀ x ∈ l, c ≤ x) → c ≤ listMin l := by
  intro l
  induction l with
  | nil => intro c h; exact absurd rfl h
  | cons a xs ih =>
      intro c _ hall
      cases xs with
      | nil => simpa [listMin] using hall a (List.mem_cons_self a [])
      | cons y t =>
          rw [listMin]
          refine le_min (hall a (List.mem_cons_self a (y :: t))) ?_
          exact ih c (by simp) (fun x hx => hall x (List.mem_cons_of_mem a hx))

theorem length_replaceAt (a v : ℚ) : ∀ (l : List ℚ), (replaceAt a v l).length = l.length := by
  intro l
  induction l with
  | nil => rfl
  | cons x xs ih =>
      by_cases h : x = a
      · simp [replaceAt, h]
      · simp [replaceAt, h, ih]

theorem mem_replaceAt (a v : ℚ) :
    ∀ (l : List ℚ) (x : ℚ), x ∈ replaceAt a v l → x = v ∨ x ∈ l := by
  intro l
  induction l with
  | nil => intro x hx; exact absurd hx (List.not_mem_nil x)
  | cons z xs ih =>
      intro x hx
      by_cases h : z = a
      · rw [replaceAt, if_pos h] at hx
        rcases List.mem_cons.mp hx with h1 | h1
        · exact Or.inl h1
        · exact Or.inr (List.mem_cons_of_mem z h1)
      · rw [replaceAt, if_neg h] at hx
        rcases List.mem_cons.mp hx with h1 | h1
        · rw [h1]; exact Or.inr (List.mem_cons_self z xs)
        · rcases ih x h1 with h2 | h2
          · exact Or.inl h2
          · exact Or.inr (List.mem_cons_of_mem z h2)

theorem countP_replaceAt (q : ℚ → Bool) (a v : ℚ) :
    ∀ (l : List ℚ), a ∈ l →
      List.countP q (replaceAt a v l) + (if q a then 1 else 0) =
        List.countP q l + (if q v then 1 else 0) := by
  intro l
  induction l with
  | nil => intro ha; exact absurd ha (List.not_mem_nil a)
  | cons x xs ih =>
      intro ha
      by_cases h : x = a
      · rw [replaceAt, if_pos h, List.countP_cons, List.countP_cons, h]
        omega
      · have hxs : a ∈ xs := by
          rcases List.mem_cons.mp ha with h1 | h1
          · exact absurd h1.symm h
          · exact h1
        rw [replaceAt, if_neg h, List.countP_cons, List.countP_cons]
        have := ih hxs
        omega

theorem sum_replaceAt (a v : ℚ) :
    ∀ (l : List ℚ), a ∈ l → (replaceAt a v l).sum + a = l.sum + v := by
  intro l
  induction l with
  | nil => intro ha; exact absurd ha (List.not_mem_nil a)
  | cons x xs ih =>
      intro ha
      by_cases h : x = a
      · rw [replaceAt, if_pos h, List.sum_cons, List.sum_cons, h]; ring
      · have hxs : a ∈ xs := by
          rcases List.mem_cons.mp ha with h1 | h1
          · exact absurd h1.symm h
          · exact h1
        rw [replaceAt, if_neg h, List.sum_cons, List.sum_cons]
        have := ih hxs
        linarith

theorem le_foldl_max :
    ∀ (xs : List ℚ) (x : ℚ), x ≤ xs.foldl max x ∧ ∀ y ∈ xs, y ≤ xs.foldl max x := by
  intro xs
  induction xs with
  | nil =>
      intro x
      exact ⟨le_refl x, fun y hy => absurd hy (List.not_mem_nil y)⟩
  | cons z zs ih =>
      intro x
      constructor
      · exact le_trans (le_max_left x z) (ih (max x z)).1
      · intro y hy
        rcases List.mem_cons.mp hy with h | h
        · rw [h]; exact le_trans (le_max_right x z) (ih (max x z)).1
        · exact (ih (max x z)).2 y h

theorem maxQ_le (l : List ℚ) (m : ℚ) (hm : maxQ l = some m) : ∀ x ∈ l, x ≤ m := by
  cases l with
  | nil => simp [maxQ] at hm
  | cons x xs =>
      rw [maxQ] at hm
      have hmeq : xs.foldl max x = m := by
        injection hm
      intro y hy
      rcases List.mem_cons.mp hy with h | h
      · rw [h, ← hmeq]; exact (le_foldl_max xs x).1
      · rw [← hmeq]; exact (le_foldl_max xs x).2 y h

theorem list_sum_nonneg : ∀ (l : List ℚ), (∀ x ∈ l, 0 ≤ x) → 0 ≤ l.sum := by
  intro l
  induction l with
  | nil => intro _; simp
  | cons x xs ih =>
      intro h
      rw [List.sum_cons]
      have := h x (List.mem_cons_self x xs)
      have := ih (fun y hy => h y (List.mem_cons_of_mem x hy))
      linarith

theorem list_sum_le_length_mul (T : ℚ) :
    ∀ (l : List ℚ), (∀ x ∈ l, x ≤ T) → l.sum ≤ (l.length : ℚ) * T := by
  intro l
  induction l with
  | nil => intro _; simp
  | cons x xs ih =>
      intro h
      rw [List.sum_cons, List.length_cons]
      have h1 := h x (List.mem_cons_self x xs)
      have h2 := ih (fun y hy => h y (List.mem_cons_of_mem x hy))
      push_cast
      linarith

theorem listMin_replicate_zero : ∀ (n : ℕ), listMin (List.replicate n (0 : ℚ)) = 0 := by
  intro n
  induction n with
  | zero => rfl
  | succ n ih =>
      cases n with
      | zero => rfl
      | succ m =>
          rw [List.replicate_succ, List.replicate_succ, listMin, ← List.replicate_succ, ih]
          simp

/-! ## Lemmas about the embedded simulation -/

theorem drawD_nonneg (p : DESParams) (stream : ℕ → ℚ)
    (har : 0 ≤ p.arrival_rate) (hstr : ∀ k, 0 ≤ stream k) (i : ℕ) :
    0 ≤ drawD p stream i :=
  mul_nonneg har (hstr _)

theorem drawS_nonneg (p : DESParams) (stream : ℕ → ℚ)
    (hst : 0 ≤ p.service_time) (hstr : ∀ k, 0 ≤ stream k) (i : ℕ) :
    0 ≤ drawS p stream i :=
  mul_nonneg hst (hstr _)

theorem arrivalTime_mono (p : DESParams) (stream : ℕ → ℚ)
    (har : 0 ≤ p.arrival_rate) (hstr : ∀ k, 0 ≤ stream k) {i j : ℕ} (hij : i ≤ j) :
    arrivalTime p stream i ≤ arrivalTime p stream j := by
  apply Finset.sum_le_sum_of_subset_of_nonneg
  · exact Finset.range_subset.mpr (by omega)
  · intro k _ _
    exact drawD_nonneg p stream har hstr k

theorem length_freeList (p : DESParams) (stream : ℕ → ℚ) :
    ∀ n, (freeList p stream n).length = p.servers := by
  intro n
  induction n with
  | zero => simp [freeList]
  | succ n ih => rw [freeList, length_replaceAt, ih]

theorem freeList_ne_nil (p : DESParams) (stream : ℕ → ℚ) (hc : 1 ≤ p.servers) (n : ℕ) :
    freeList p stream n ≠ [] := by
  intro h
  have := length_freeList p stream n
  rw [h] at this
  simp at this
  omega

theorem freeList_succ (p : DESParams) (stream : ℕ → ℚ) (n : ℕ) :
    freeList p stream (n + 1) =
      replaceAt (listMin (freeList p stream n))
        (startAt p stream n + drawS p stream n) (freeList p stream n) := rfl

theorem listMin_le_startAt (p : DESParams) (stream : ℕ → ℚ) (n : ℕ) :
    listMin (freeList p stream n) ≤ startAt p stream n :=
  le_max_right _ _

theorem listMin_freeList_mono (p : DESParams) (stream : ℕ → ℚ)
    (hst : 0 ≤ p.service_time) (hstr : ∀ k, 0 ≤ stream k) (n : ℕ) :
    listMin (freeList p stream n) ≤ listMin (freeList p stream (n + 1)) := by
  by_cases hne : freeList p stream n = []
  · rw [freeList_succ, hne]
    simp [replaceAt]
  · apply le_listMin
    · intro hcon
      have := length_replaceAt (listMin (freeList p stream n))
        (startAt p stream n + drawS p stream n) (freeList p stream n)
      rw [← freeList_succ, hcon] at this
      exact hne (List.length_eq_zero.mp this.symm)
    · intro x hx
      rw [freeList_succ] at hx
      rcases mem_replaceAt _ _ _ x hx with h | h
      · rw [h]
        have h1 := listMin_le_startAt p stream n
        have h2 := drawS_nonneg p stream hst hstr n
        linarith
      · exact listMin_le _ x h

theorem startAt_succ_le (p : DESParams) (stream : ℕ → ℚ)
    (har : 0 ≤ p.arrival_rate) (hst : 0 ≤ p.service_time) (hstr : ∀ k, 0 ≤ stream k)
    (n : ℕ) :
    startAt p stream n ≤ startAt p stream (n + 1) :=
  max_le_max (arrivalTime_mono p stream har hstr (Nat.le_succ n))
    (listMin_freeList_mono p stream hst hstr n)

theorem startAt_mono (p : DESParams) (stream : ℕ → ℚ)
    (har : 0 ≤ p.arrival_rate) (hst : 0 ≤ p.service_time) (hstr : ∀ k, 0 ≤ stream k)
    {i j : ℕ} (hij : i ≤ j) :
    startAt p stream i ≤ startAt p stream j := by
  induction j, hij using Nat.le_induction with
  | base => exact le_refl _
  | succ j hij ih => exact le_trans ih (startAt_succ_le p stream har hst hstr j)

theorem countP_inService_le_freeList (p : DESParams) (stream : ℕ → ℚ) (t : ℚ)
    (hc : 1 ≤ p.servers) (hst : 0 ≤ p.service_time) (hstr : ∀ k, 0 ≤ stream k) :
    ∀ n, List.countP (inService t) ((List.range n).map (recordAt p stream)) ≤
      List.countP (fun m => decide (t < m)) (freeList p stream n) := by
  intro n
  induction n with
  | zero => simp
  | succ n ih =>
      have hmem := listMin_mem _ (freeList_ne_nil p stream hc n)
      have hkey := countP_replaceAt (fun m => decide (t < m))
        (listMin (freeList p stream n)) (startAt p stream n + drawS p stream n)
        (freeList p stream n) hmem
      rw [List.range_succ, List.map_append, List.countP_append, freeList_succ]
      simp only [List.map_cons, List.map_nil]
      have hsingle : List.countP (inService t) [recordAt p stream n] =
          if inService t (recordAt p stream n) then 1 else 0 := by
        simp [List.countP_cons]
      rw [hsingle]
      have hdS := drawS_nonneg p stream hst hstr n
      have hkey2 : List.countP (fun m => decide (t < m))
            (replaceAt (listMin (freeList p stream n))
              (startAt p stream n + drawS p stream n) (freeList p stream n)) +
            (if t < listMin (freeList p stream n) then 1 else 0) =
          List.countP (fun m => decide (t < m)) (freeList p stream n) +
            (if t < startAt p stream n + drawS p stream n then 1 else 0) := by
        simpa using hkey
      by_cases hlt : t < listMin (freeList p stream n)
      · have hns : ¬ (startAt p stream n ≤ t) :=
          not_le.mpr (lt_of_lt_of_le hlt (listMin_le_startAt p stream n))
        have h1 : inService t (recordAt p stream n) = false := by
          simp [inService, recordAt, hns]
        have h2 : t < startAt p stream n + drawS p stream n := by
          have := listMin_le_startAt p stream n
          linarith
        rw [if_pos hlt, if_pos h2] at hkey2
        simp only [h1, if_neg Bool.false_ne_true]
        omega
      · rw [if_neg hlt] at hkey2
        have h2 : (if inService t (recordAt p stream n) = true then 1 else 0) ≤
            (if t < startAt p stream n + drawS p stream n then 1 else 0) := by
          by_cases hi : inService t (recordAt p stream n) = true
          · have hx := hi
            simp [inService, recordAt, endAt] at hx
            rw [if_pos hi, if_pos hx.2]
          · rw [if_neg hi]
            omega
        omega

theorem freeList_mem_cases (p : DESParams) (stream : ℕ → ℚ) :
    ∀ n, ∀ x ∈ freeList p stream n, x = 0 ∨ ∃ j, j < n ∧ x = endAt p stream j := by
  intro n
  induction n with
  | zero =>
      intro x hx
      exact Or.inl (List.eq_of_mem_replicate hx)
  | succ n ih =>
      intro x hx
      rw [freeList_succ] at hx
      rcases mem_replaceAt _ _ _ x hx with h | h
      · exact Or.inr ⟨n, Nat.lt_succ_self n, h⟩
      · rcases ih x h with h0 | ⟨j, hj, hxe⟩
        · exact Or.inl h0
        · exact Or.inr ⟨j, Nat.lt_succ_of_lt hj, hxe⟩

theorem sum_drawS_le_freeList_sum (p : DESParams) (stream : ℕ → ℚ)
    (hc : 1 ≤ p.servers) :
    ∀ n, ((List.range n).map (drawS p stream)).sum ≤ (freeList p stream n).sum := by
  intro n
  induction n with
  | zero =>
      simp [freeList, List.sum_replicate]
  | succ n ih =>
      have hmem := listMin_mem _ (freeList_ne_nil p stream hc n)
      have hkey := sum_replaceAt (listMin (freeList p stream n))
        (startAt p stream n + drawS p stream n) (freeList p stream n) hmem
      rw [List.range_succ, List.map_append, List.sum_append, freeList_succ]
      have hstart := listMin_le_startAt p stream n
      simp only [List.map_cons, List.map_nil, List.sum_cons, List.sum_nil]
      linarith

theorem length_runDES (p : DESParams) (stream : ℕ → ℚ) :
    (runDES p stream).length = p.num_students := by
  simp [runDES]

theorem total_service_runDES (p : DESParams) (stream : ℕ → ℚ) :
    total_service (runDES p stream) =
      ((List.range p.num_students).map (drawS p stream)).sum := by
  simp [total_service, runDES, List.map_map, Function.comp_def, recordAt]

theorem map_endT_runDES (p : DESParams) (stream : ℕ → ℚ) :
    (runDES p stream).map (fun r => r.endT) =
      (List.range p.num_students).map (endAt p stream) := by
  simp [runDES, List.map_map, Function.comp_def, recordAt]

/-! ## Claim theorems -/

/-- C1.  Determinism of a run: the simulation entry point `run_des` is a
deterministic function of the parameters and of the seeded random stream —
two invocations with the same seed (hence the same stream of exponential
variates) and the same parameters produce identical `EntityRecord`
sequences, record for record. -/
theorem run_des_deterministic (p : DESParams) (s₁ s₂ : ℕ → ℚ)
    (h : ∀ k, s₁ k = s₂ k) :
    runDES p s₁ = runDES p s₂ := by
  have hs : s₁ = s₂ := funext h
  rw [hs]

/-- Witness for C1 at `num_students = 3, arrival_rate = 4, service_time = 5,
servers = 2` and the constant stream. -/
theorem run_des_deterministic_witness :
    runDES ⟨3, 4, 5, 2⟩ (fun _ => 1) = runDES ⟨3, 4, 5, 2⟩ (fun _ => 1) :=
  run_des_deterministic ⟨3, 4, 5, 2⟩ (fun _ => 1) (fun _ => 1) (fun _ => rfl)

/-- C2.  Occupancy invariant: at every logical instant `t`, the number of
entities simultaneously in service (started and not yet departed) among
the records of a `run_des` run never exceeds the configured capacity
`servers`. -/
theorem run_des_occupancy (p : DESParams) (stream : ℕ → ℚ) (t : ℚ)
    (hc : 1 ≤ p.servers) (hst : 0 ≤ p.service_time) (hstr : ∀ k, 0 ≤ stream k) :
    List.countP (inService t) (runDES p stream) ≤ p.servers := by
  have h1 := countP_inService_le_freeList p stream t hc hst hstr p.num_students
  have h2 : List.countP (fun m => decide (t < m)) (freeList p stream p.num_students) ≤
      (freeList p stream p.num_students).length := List.countP_le_length _
  have h3 := length_freeList p stream p.num_students
  rw [runDES]
  omega

/-- Witness for C2: one student, one server, probing the instant `t = 5`
during its service. -/
theorem run_des_occupancy_witness :
    List.countP (inService 5) (runDES ⟨1, 4, 5, 1⟩ (fun _ => 1)) ≤ 1 :=
  run_des_occupancy ⟨1, 4, 5, 1⟩ (fun _ => 1) 5 (by norm_num) (by norm_num)
    (fun _ => by norm_num)

/-- C3.  Per-record timestamp ordering: for valid parameters every record
of `run_des` satisfies `arrival ≤ start ≤ end` and
`wait = start - arrival ≥ 0`; moreover `wait = 0` (server free at
arrival) is representable — for the same parameters there is a valid
(non-negative) random stream whose output contains a record with
`wait = 0`, and it is not filtered out of the result. -/
theorem run_des_record_timestamps (p : DESParams) (stream : ℕ → ℚ)
    (hn : 1 ≤ p.num_students) (har : 0 < p.arrival_rate)
    (hst : 0 < p.service_time) (hc : 1 ≤ p.servers) (hstr : ∀ k, 0 ≤ stream k) :
    (∀ r ∈ runDES p stream,
        r.arrival ≤ r.start ∧ r.start ≤ r.endT ∧
        r.wait = r.start - r.arrival ∧ 0 ≤ r.wait) ∧
    (∃ zs : ℕ → ℚ, (∀ k, 0 ≤ zs k) ∧ ∃ r ∈ runDES p zs, r.wait = 0) := by
  constructor
  · intro r hr
    rcases List.mem_map.mp hr with ⟨i, hi, hrec⟩
    rw [← hrec]
    refine ⟨le_max_left _ _, ?_, rfl, ?_⟩
    · show startAt p stream i ≤ endAt p stream i
      have := drawS_nonneg p stream hst.le hstr i
      rw [endAt]
      linarith
    · show 0 ≤ startAt p stream i - arrivalTime p stream i
      have : arrivalTime p stream i ≤ startAt p stream i := le_max_left _ _
      linarith
  · refine ⟨fun _ => 0, fun _ => le_refl 0, recordAt p (fun _ => 0) 0, ?_, ?_⟩
    · exact List.mem_map.mpr ⟨0, List.mem_range.mpr (by omega), rfl⟩
    · have ha : arrivalTime p (fun _ => 0) 0 = 0 := by
        simp [arrivalTime, drawD]
      have hs : startAt p (fun _ => 0) 0 = 0 := by
        rw [startAt, ha]
        show max 0 (listMin (List.replicate p.servers 0)) = 0
        rw [listMin_replicate_zero]
        simp
      show startAt p (fun _ => 0) 0 - arrivalTime p (fun _ => 0) 0 = 0
      rw [ha, hs]
      simp

/-- Witness for C3 at `num_students = 1, arrival_rate = 4, service_time = 5,
servers = 1`, constant stream, record of student 0. -/
theorem run_des_record_timestamps_witness :
    (recordAt ⟨1, 4, 5, 1⟩ (fun _ => 1) 0).arrival ≤
        (recordAt ⟨1, 4, 5, 1⟩ (fun _ => 1) 0).start ∧
    (recordAt ⟨1, 4, 5, 1⟩ (fun _ => 1) 0).start ≤
        (recordAt ⟨1, 4, 5, 1⟩ (fun _ => 1) 0).endT ∧
    (recordAt ⟨1, 4, 5, 1⟩ (fun _ => 1) 0).wait =
        (recordAt ⟨1, 4, 5, 1⟩ (fun _ => 1) 0).start -
          (recordAt ⟨1, 4, 5, 1⟩ (fun _ => 1) 0).arrival ∧
    0 ≤ (recordAt ⟨1, 4, 5, 1⟩ (fun _ => 1) 0).wait :=
  (run_des_record_timestamps ⟨1, 4, 5, 1⟩ (fun _ => 1) (by norm_num) (by norm_num)
      (by norm_num) (by norm_num) (fun _ => by norm_num)).1
    (recordAt ⟨1, 4, 5, 1⟩ (fun _ => 1) 0)
    (List.mem_map.mpr ⟨0, List.mem_range.mpr (by norm_num), rfl⟩)

/-- C8.  FIFO fairness: grants are issued strictly in the order the
requests arrived (requests happen in id order), so service-start times
are monotone along the returned record sequence — of any two entities,
the one that requested earlier starts service no later. -/
theorem run_des_fifo_start_order (p : DESParams) (stream : ℕ → ℚ)
    (har : 0 ≤ p.arrival_rate) (hst : 0 ≤ p.service_time)
    (hstr : ∀ k, 0 ≤ stream k) :
    List.Pairwise (fun a b => a.start ≤ b.start) (runDES p stream) := by
  rw [runDES, List.pairwise_map]
  exact (List.pairwise_lt_range p.num_students).imp
    (fun hab => startAt_mono p stream har hst hstr (le_of_lt hab))

/-- Witness for C8 at `num_students = 3, arrival_rate = 4, service_time = 5,
servers = 2`, constant stream. -/
theorem run_des_fifo_start_order_witness :
    List.Pairwise (fun a b => a.start ≤ b.start) (runDES ⟨3, 4, 5, 2⟩ (fun _ => 1)) :=
  run_des_fifo_start_order ⟨3, 4, 5, 2⟩ (fun _ => 1) (by norm_num) (by norm_num)
    (fun _ => by norm_num)

/-- C10.  Output shape: `run_des` terminates (the embedding is a total
function) and returns exactly `num_students` records whose ids are
`0 … num_students - 1` in strictly increasing order (the list of ids *is*
`range num_students`), with arrival times nondecreasing in id order. -/
theorem run_des_output_shape (p : DESParams) (stream : ℕ → ℚ)
    (har : 0 ≤ p.arrival_rate) (hstr : ∀ k, 0 ≤ stream k) :
    (runDES p stream).length = p.num_students ∧
    (runDES p stream).map (fun r => r.id) = List.range p.num_students ∧
    List.Pairwise (fun a b => a.arrival ≤ b.arrival) (runDES p stream) := by
  refine ⟨length_runDES p stream, ?_, ?_⟩
  · simp [runDES, List.map_map, Function.comp_def, recordAt]
  · rw [runDES, List.pairwise_map]
    exact (List.pairwise_lt_range p.num_students).imp
      (fun hab => arrivalTime_mono p stream har hstr (le_of_lt hab))

/-- Witness for C10 at `num_students = 2, arrival_rate = 4, service_time = 5,
servers = 1`, constant stream. -/
theorem run_des_output_shape_witness :
    (runDES ⟨2, 4, 5, 1⟩ (fun _ => 1)).length = 2 ∧
    (runDES ⟨2, 4, 5, 1⟩ (fun _ => 1)).map (fun r => r.id) = List.range 2 ∧
    List.Pairwise (fun a b => a.arrival ≤ b.arrival) (runDES ⟨2, 4, 5, 1⟩ (fun _ => 1)) :=
  run_des_output_shape ⟨2, 4, 5, 1⟩ (fun _ => 1) (by norm_num) (fun _ => by norm_num)

/-- C4.  Stability boundary of the analytic model: for positive rates and
`servers ≥ 1`, `run_cs` returns `none` (the "unstable" variant rendered as
"System Unstable" by the app) exactly when `rho ≥ 1`; in particular it is
`none` when `arrival_rate = servers * service_rate`; and whenever
`rho < 1` — in particular when `arrival_rate = 0.99 * servers *
service_rate` — it returns a numeric result whose `Wq` is (finite and)
strictly positive. -/
theorem run_cs_stability_boundary (lam mu : ℚ) (c : ℕ)
    (hl : 0 < lam) (hm : 0 < mu) (hc : 1 ≤ c) :
    (run_cs lam mu c = none ↔ 1 ≤ csRho lam mu c) ∧
    (lam = (c : ℚ) * mu → run_cs lam mu c = none) ∧
    (csRho lam mu c < 1 → ∃ r, run_cs lam mu c = some r ∧ 0 < r.Wq) ∧
    (lam = (99 / 100) * ((c : ℚ) * mu) →
      ∃ r, run_cs lam mu c = some r ∧ 0 < r.Wq) := by
  have hcq : (0 : ℚ) < (c : ℚ) := by
    have : 0 < c := by omega
    exact_mod_cast this
  have hcm : (0 : ℚ) < (c : ℚ) * mu := mul_pos hcq hm
  have key : csRho lam mu c < 1 → ∃ r, run_cs lam mu c = some r ∧ 0 < r.Wq := by
    intro hrho
    refine ⟨_, by rw [run_cs, if_neg (not_le.mpr hrho)], ?_⟩
    have hrho_pos : 0 < csRho lam mu c := div_pos hl hcm
    have hsub : 0 < 1 - csRho lam mu c := by linarith
    have hlm : 0 < lam / mu := div_pos hl hm
    have hfact : (0 : ℚ) < (Nat.factorial c : ℚ) := by
      exact_mod_cast Nat.factorial_pos c
    have hlast : 0 < csLastTerm lam mu c := by
      rw [csLastTerm]
      exact mul_pos (div_pos (pow_pos hlm c) hfact) (div_pos one_pos hsub)
    have hsum0 : 0 ≤ csSumTerms lam mu c := by
      apply Finset.sum_nonneg
      intro n _
      exact div_nonneg (pow_nonneg hlm.le n) (Nat.cast_nonneg _)
    have hp0 : 0 < csP0 lam mu c := by
      rw [csP0]
      apply div_pos one_pos
      linarith
    have hpw : 0 < csPw lam mu c := mul_pos hlast hp0
    have hLq : 0 < csLq lam mu c := div_pos (mul_pos hpw hrho_pos) hsub
    show 0 < csWq lam mu c
    exact div_pos hLq hl
  refine ⟨?_, ?_, key, ?_⟩
  · rw [run_cs]
    split_ifs with h
    · simp [h]
    · simp [h]
  · intro heq
    have h1 : csRho lam mu c = 1 := by
      rw [csRho, heq]
      exact div_self hcm.ne'
    rw [run_cs, if_pos (le_of_eq h1.symm)]
  · intro heq
    apply key
    rw [csRho, heq, mul_div_assoc, div_self hcm.ne']
    norm_num

/-- Witness for C4 at `arrival_rate = 2, service_rate = 1, servers = 1`
(an unstable instance, `rho = 2`). -/
theorem run_cs_stability_boundary_witness :
    run_cs 2 1 1 = none ↔ 1 ≤ csRho 2 1 1 :=
  (run_cs_stability_boundary 2 1 1 (by norm_num) (by norm_num) (by norm_num)).1

/-- C5.  Utilization law: for a completed run with last departure time
`T > 0`, the app computes `des_utilization = total_service / (servers * T)`
(src/3d.py lines 125–127), and this value always lies in `[0, 1]` — the
total sampled service time can never exceed `servers * T`, so a value
above 1 is impossible (the absence of an explicit flag in the code is
vacuous). -/
theorem des_utilization_in_unit_interval (p : DESParams) (stream : ℕ → ℚ) (T : ℚ)
    (hc : 1 ≤ p.servers) (hst : 0 ≤ p.service_time) (hstr : ∀ k, 0 ≤ stream k)
    (hT : sim_end (runDES p stream) = some T) (hTpos : 0 < T) :
    des_utilization (runDES p stream) p.servers =
        some (total_service (runDES p stream) / ((p.servers : ℚ) * T)) ∧
    0 ≤ total_service (runDES p stream) / ((p.servers : ℚ) * T) ∧
    total_service (runDES p stream) / ((p.servers : ℚ) * T) ≤ 1 := by
  have hcq : (0 : ℚ) < (p.servers : ℚ) := by
    have : 0 < p.servers := by omega
    exact_mod_cast this
  have hden : (0 : ℚ) < (p.servers : ℚ) * T := mul_pos hcq hTpos
  have hS0 : 0 ≤ total_service (runDES p stream) := by
    rw [total_service_runDES]
    apply list_sum_nonneg
    intro x hx
    rcases List.mem_map.mp hx with ⟨i, _, hxe⟩
    rw [← hxe]
    exact drawS_nonneg p stream hst hstr i
  have hmaxT : maxQ ((runDES p stream).map (fun r => r.endT)) = some T := hT
  have hend_le : ∀ j < p.num_students, endAt p stream j ≤ T := by
    intro j hj
    apply maxQ_le _ _ hmaxT
    rw [map_endT_runDES]
    exact List.mem_map.mpr ⟨j, List.mem_range.mpr hj, rfl⟩
  have hfree_le : ∀ x ∈ freeList p stream p.num_students, x ≤ T := by
    intro x hx
    rcases freeList_mem_cases p stream p.num_students x hx with h0 | ⟨j, hj, hxe⟩
    · rw [h0]; exact hTpos.le
    · rw [hxe]; exact hend_le j hj
  have hSle : total_service (runDES p stream) ≤ (p.servers : ℚ) * T := by
    rw [total_service_runDES]
    have h1 := sum_drawS_le_freeList_sum p stream hc p.num_students
    have h2 := list_sum_le_length_mul T (freeList p stream p.num_students) hfree_le
    rw [length_freeList] at h2
    linarith
  refine ⟨?_, div_nonneg hS0 hden.le, ?_⟩
  · rw [des_utilization, hT]
    rfl
  · rw [div_le_one hden]
    exact hSle

/-- Witness for C5 at `num_students = 1, arrival_rate = 4, service_time = 5,
servers = 1`, constant stream: the single record is
`arrival 4, start 4, end 9`, so `T = 9` and utilization `5/9`. -/
theorem des_utilization_in_unit_interval_witness :
    des_utilization (runDES ⟨1, 4, 5, 1⟩ (fun _ => 1)) 1 =
        some (total_service (runDES ⟨1, 4, 5, 1⟩ (fun _ => 1)) / (((1 : ℕ) : ℚ) * 9)) ∧
    0 ≤ total_service (runDES ⟨1, 4, 5, 1⟩ (fun _ => 1)) / (((1 : ℕ) : ℚ) * 9) ∧
    total_service (runDES ⟨1, 4, 5, 1⟩ (fun _ => 1)) / (((1 : ℕ) : ℚ) * 9) ≤ 1 :=
  des_utilization_in_unit_interval ⟨1, 4, 5, 1⟩ (fun _ => 1) 9 (by norm_num)
    (by norm_num) (fun _ => by norm_num)
    (by norm_num [sim_end, runDES, maxQ, recordAt, endAt, startAt, arrivalTime,
      drawS, drawD, freeList, listMin, List.range_succ])
    (by norm_num)

/-- C6 counterexample.  The claim says every non-positive parameter makes
the entry point fail with an `InvalidParameter` error before scheduling;
but with `num_students = 0` (a non-positive count) `run_des` does not fail
at all — the arrival loop over `range(0)` is empty and the call completes
normally, returning the empty record list. -/
theorem run_des_no_validation_cex :
    runDES ⟨0, 4, 5, 2⟩ (fun _ => 1) = [] := rfl

/-- C6 amended.  `run_des` performs no parameter validation: with
`num_entities = 0` it does not raise any error — it completes normally
and returns the empty record sequence (there is no `InvalidParameter`
check anywhere in the code). -/
theorem run_des_zero_students_returns_nil (ar st : ℚ) (srv : ℕ) (stream : ℕ → ℚ) :
    runDES ⟨0, ar, st, srv⟩ stream = [] := rfl

/-- C7 counterexample.  With zero entities configured the wait-time list
is empty, and the statistics do *not* fail with an explicit
`EmptyRunResult` outcome: `np.mean` returns the float `NaN`
(`NpFloat.nan`) and `np.max` raises a `ValueError` (modelled `none`). -/
theorem empty_run_stats_cex :
    avg_wait (runDES ⟨0, 4, 5, 2⟩ (fun _ => 1)) = NpFloat.nan ∧
    max_wait (runDES ⟨0, 4, 5, 2⟩ (fun _ => 1)) = none := ⟨rfl, rfl⟩

/-- C7 amended.  When zero entities are configured, the mean-wait
statistic evaluates to `NaN` and the max-wait statistic to the
`ValueError` failure of `np.max` on a zero-size array; no explicit
`EmptyRunResult` / "no data" outcome exists in the code. -/
theorem empty_run_stats_nan_and_error (ar st : ℚ) (srv : ℕ) (stream : ℕ → ℚ) :
    avg_wait (runDES ⟨0, ar, st, srv⟩ stream) = NpFloat.nan ∧
    max_wait (runDES ⟨0, ar, st, srv⟩ stream) = none := ⟨rfl, rfl⟩

/-- C9.  Throughput formula: the reported throughput equals the number of
completed records divided by `final_clock_time + 1` (the code's ε is 1):
`run_des` completes exactly `num_students` records, and
`throughput = num_students / (sim_end + 1)` (src/3d.py line 128). -/
theorem throughput_formula (p : DESParams) (stream : ℕ → ℚ) :
    throughputDES p.num_students (runDES p stream) =
      (sim_end (runDES p stream)).map
        (fun T => ((runDES p stream).length : ℚ) / (T + 1)) := by
  rw [throughputDES, length_runDES]
